import Mathlib

/-!
Verification of the goarista `path` package and the `key` package's hybrid
Map against their specification.

The `path` package source (path.go) is embedded directly.  The `key`
package (the Key wrapper, the Wildcard sentinel and the hybrid Map) is not
part of the visible sources, only its test file is; those parts are
modelled from the specification, as marked on each definition.
-/

set_option maxHeartbeats 1000000

namespace GoaristaVerify

/-! ## Key model -/

/-- Modelled from the spec: a `key.Key` is a uniform wrapper over an
arbitrary underlying value.  We model the underlying values needed by the
path claims: strings (comparable scalars), integers (a non-string
comparable scalar), and the process-wide Wildcard sentinel, whose
underlying value is not a string. -/
inductive KeyVal where
  | str : String → KeyVal
  | intg : Int → KeyVal
  | wildcard : KeyVal
deriving DecidableEq

/-- Modelled from the spec: `Key.Equal` on comparable scalars reduces to
native equality, and the Wildcard sentinel behaves as an ordinary Key
under plain equality. -/
def keyEqual (a b : KeyVal) : Bool := a == b

/-- Modelled from the spec: the Go type assertion `k.Key().(string)` —
the underlying value of the key when it wraps a string, `none` otherwise
(the Wildcard's underlying value is not a string). -/
def keyStr : KeyVal → Option String
  | .str s => some s
  | _ => none

/-- Modelled from the spec: `key.New` applied to a string value wraps it
as a native Key whose equality is native string equality. -/
def keyNew (s : String) : KeyVal := .str s

/-- Modelled from the spec: the process-wide Wildcard sentinel Key. -/
def Wildcard : KeyVal := .wildcard

/-- A `key.Path` is an ordered sequence of Keys. -/
abbrev Path := List KeyVal

/-- An argument to `New`/`Append`: either already a `key.Key` or a raw
string value to be wrapped (the two arms of the type switch in
`copyElements`). -/
inductive Elem where
  | key : KeyVal → Elem
  | raw : String → Elem
deriving DecidableEq

/-! ## path.go definitions -/

/-- Embeds `copyElements` (path.go): each element is kept if it is
already a `key.Key` and wrapped with `key.New` otherwise. -/
def copyElements (es : List Elem) : Path :=
  es.map fun e =>
    match e with
    | .key k => k
    | .raw s => keyNew s

/-- Embeds `New` (path.go). -/
def New (es : List Elem) : Path := copyElements es

/-- Embeds `Append` (path.go): appending zero elements returns the input
path itself; otherwise a fresh sequence of the old elements followed by
the wrapped new ones. -/
def Append (path : Path) (elements : List Elem) : Path :=
  if elements.length = 0 then path
  else path ++ copyElements elements

/-- Embeds `Join` (path.go): if the total length is zero the result is
nil, otherwise all paths are copied consecutively into one sequence. -/
def Join (paths : List Path) : Path :=
  if (paths.map List.length).sum = 0 then []
  else paths.flatten

/-- Embeds `Parent` (path.go): all but the last element, nil for an
empty path. -/
def Parent (path : Path) : Path :=
  if path.length > 0 then path.dropLast else []

/-- Embeds `Base` (path.go): the last element, nil (here `none`) for an
empty path. -/
def Base (path : Path) : Option KeyVal :=
  if path.length > 0 then path.getLast? else none

/-- Embeds the helper `hasPrefix` (path.go): `b[i].Equal(a[i])` for every
index of `b`.  Its callers guarantee `len(a) >= len(b)`; the case of a
too-short `a` (a panic in Go) is mapped to `false`. -/
def hasPrefixAux : Path → Path → Bool
  | _, [] => true
  | [], _ :: _ => false
  | x :: xs, y :: ys => keyEqual y x && hasPrefixAux xs ys

/-- Embeds `Equal` (path.go). -/
def Equal (a b : Path) : Bool :=
  a.length == b.length && hasPrefixAux a b

/-- Embeds `HasElement` (path.go). -/
def HasElement (a : Path) (b : KeyVal) : Bool :=
  a.any fun element => keyEqual element b

/-- Embeds the helper `compareElementString` (path.go): if both keys wrap
strings, the string under `b` must be a prefix of the string under `a`;
otherwise fall back to `b.Equal(a)`. -/
def compareElementString (a b : KeyVal) : Bool :=
  match keyStr b, keyStr a with
  | some bStr, some aStr => bStr.data.isPrefixOf aStr.data
  | _, _ => keyEqual b a

/-- Embeds the helper `hasPrefixString` (path.go): empty `b` matches;
otherwise all of `Parent b` must match `Parent a` exactly and the element
of `a` at index `len(b)-1` is compared to `Base b` by
`compareElementString`.  The out-of-range case (impossible under the
caller's length guard) is mapped to `false`. -/
def hasPrefixStringAux (a b : Path) : Bool :=
  if b.length = 0 then true
  else if !(hasPrefixAux (Parent a) (Parent b)) then false
  else
    match a[b.length - 1]?, Base b with
    | some aElem, some bLast => compareElementString aElem bLast
    | _, _ => false

/-- Embeds `HasPrefixString` (path.go). -/
def HasPrefixString (a b : Path) : Bool :=
  decide (b.length ≤ a.length) && hasPrefixStringAux a b

/-- Embeds the helper `matchPrefix` (path.go): at each index of `b`,
either `a[i].Equal(Wildcard)` or `b[i].Equal(a[i])`. -/
def matchPrefixAux : Path → Path → Bool
  | _, [] => true
  | [], _ :: _ => false
  | x :: xs, y :: ys => (keyEqual x Wildcard || keyEqual y x) && matchPrefixAux xs ys

/-- Embeds `Match` (path.go). -/
def Match (a b : Path) : Bool :=
  a.length == b.length && matchPrefixAux a b

/-- Embeds `MatchPrefix` (path.go). -/
def MatchPrefix (a b : Path) : Bool :=
  decide (b.length ≤ a.length) && matchPrefixAux a b

/-- Embeds the helper `matchPrefixString` (path.go). -/
def matchPrefixStringAux (a b : Path) : Bool :=
  if b.length = 0 then true
  else if !(matchPrefixAux (Parent a) (Parent b)) then false
  else
    match a[b.length - 1]?, Base b with
    | some aKey, some bLast => keyEqual aKey Wildcard || compareElementString aKey bLast
    | _, _ => false

/-- Embeds `MatchPrefixString` (path.go). -/
def MatchPrefixString (a b : Path) : Bool :=
  decide (b.length ≤ a.length) && matchPrefixStringAux a b

/-- Strips a single leading slash, the `str[0] == '/'` branch of
`FromString` (path.go). -/
def stripSlash (cs : List Char) : List Char :=
  if cs.head? = some '/' then cs.tail else cs

/-- Embeds `strings.Split(str, "/")` for the single-character separator
used by `FromString`. -/
def splitSlash : List Char → List (List Char)
  | [] => [[]]
  | c :: rest =>
    if c = '/' then [] :: splitSlash rest
    else
      match splitSlash rest with
      | [] => [[c]]
      | t :: ts => (c :: t) :: ts

/-- Embeds `FromString` (path.go): `""` and `"/"` are the empty path; a
single leading `/` is stripped, the rest is split on `/`, and every
token is wrapped with `key.New`. -/
def FromString (str : String) : Path :=
  if str == "" || str == "/" then []
  else (splitSlash (stripSlash str.data)).map fun t => keyNew (String.mk t)

/-! ## Map model

The hybrid Map of the `key` package is not part of the visible sources
(only its test file is); every definition in this section is modelled
from the specification, sections 4.2 to 4.6.  Keys are an abstract type
`K` equipped with the caller-side contract: a boolean equality `keq`, a
`hash`, and a kind flag `isNat` telling whether the key is natively
comparable (stored in the normal store) or custom (stored in the
hash-bucketed store).  Values are an abstract type `V` compared by a
caller-supplied boolean equality `veq`, which for nested-map values is
Map equality itself. -/

/-- Modelled from the spec: the hybrid Map, with a native-comparable
store, a hash-bucket-with-chaining store (bucket list keyed by hash,
each bucket an insertion-ordered collision chain), and the count of
logical entries. -/
structure KMap (K V : Type) where
  normal : List (K × V)
  custom : List (Nat × List (K × V))
  length : Nat
deriving DecidableEq

section MapModel

variable {K V E : Type}
variable (keq : K → K → Bool) (hash : K → Nat) (isNat : K → Bool)

/-- Walks a collision chain looking for a node whose key `Equal`-matches
`k`. -/
def chainHas (k : K) : List (K × V) → Bool
  | [] => false
  | (k0, _) :: rest => keq k0 k || chainHas k rest

/-- Modelled from the spec (4.2): overwrite the value of the first
`Equal`-matching node in place (keeping its key and its chain position),
or append a fresh node at the tail if the chain has no match. -/
def chainPut (k : K) (v : V) : List (K × V) → List (K × V)
  | [] => [(k, v)]
  | (k0, v0) :: rest =>
    if keq k0 k then (k0, v) :: rest
    else (k0, v0) :: chainPut k v rest

/-- Modelled from the spec (4.3): first `Equal`-matching node's value. -/
def chainGet (k : K) : List (K × V) → Option V
  | [] => none
  | (k0, v0) :: rest => if keq k0 k then some v0 else chainGet k rest

/-- Chain position (0-based) of the first `Equal`-matching node. -/
def chainIdx (k : K) : List (K × V) → Option Nat
  | [] => none
  | (k0, _) :: rest => if keq k0 k then some 0 else (chainIdx k rest).map (· + 1)

/-- Bucket lookup by hash. -/
def bucketGet (h : Nat) : List (Nat × List (K × V)) → Option (List (K × V))
  | [] => none
  | (h0, c0) :: rest => if h0 = h then some c0 else bucketGet h rest

/-- Replaces the chain of the bucket keyed `h` (used only when that
bucket is present). -/
def bucketPut (h : Nat) (c : List (K × V)) :
    List (Nat × List (K × V)) → List (Nat × List (K × V))
  | [] => []
  | (h0, c0) :: rest =>
    if h0 = h then (h0, c) :: rest else (h0, c0) :: bucketPut h c rest

/-- Modelled from the spec (4.2), `Map.Set`: native keys go to the
normal store; custom keys go to the bucket of their hash, a fresh
bucket being created when absent; an `Equal` match overwrites in place
(length unchanged) and otherwise a node is appended at the tail
(length incremented). -/
def MSet (m : KMap K V) (k : K) (v : V) : KMap K V :=
  if isNat k then
    ⟨chainPut keq k v m.normal, m.custom,
      if chainHas keq k m.normal then m.length else m.length + 1⟩
  else
    match bucketGet (hash k) m.custom with
    | none => ⟨m.normal, m.custom ++ [(hash k, [(k, v)])], m.length + 1⟩
    | some c =>
      ⟨m.normal, bucketPut (hash k) (chainPut keq k v c) m.custom,
        if chainHas keq k c then m.length else m.length + 1⟩

/-- Modelled from the spec (4.3), `Map.Get`: native keys are looked up
in the normal store, custom keys by walking the chain of their hash
bucket; absence is `none`. -/
def MGet (m : KMap K V) (k : K) : Option V :=
  if isNat k then chainGet keq k m.normal
  else
    match bucketGet (hash k) m.custom with
    | none => none
    | some c => chainGet keq k c

/-- The logical entries of a Map: the normal store followed by every
collision chain, each head to tail (the enumeration order of
`Map.Iter`, 4.5). -/
def entries (m : KMap K V) : List (K × V) :=
  m.normal ++ (m.custom.map Prod.snd).flatten

/-- Modelled from the spec (4.6), `Map.Equal`: lengths must match and
every entry of the receiver must be found in the other map under an
`Equal`-matching key with `veq`-equal value. -/
def MEqual (veq : V → V → Bool) (m1 m2 : KMap K V) : Bool :=
  m1.length == m2.length &&
  (entries m1).all fun p =>
    match MGet keq hash isNat m2 p.1 with
    | some v2 => veq p.2 v2
    | none => false

/-- Applies the visitor along one chain, stopping at the first error. -/
def iterChain (f : K → V → Option E) : List (K × V) → Option E
  | [] => none
  | (k, v) :: rest =>
    match f k v with
    | some e => some e
    | none => iterChain f rest

/-- Applies the visitor to every bucket's chain, head to tail. -/
def iterBuckets (f : K → V → Option E) : List (Nat × List (K × V)) → Option E
  | [] => none
  | (_, c) :: rest =>
    match iterChain f c with
    | some e => some e
    | none => iterBuckets f rest

/-- Modelled from the spec (4.5), `Map.Iter`: visits all normal-store
entries, then every chain head to tail; a `some` result from the
visitor (an error in Go) aborts the iteration and is returned verbatim,
otherwise the result is `none` (nil). -/
def MIter (f : K → V → Option E) (m : KMap K V) : Option E :=
  match iterChain f m.normal with
  | some e => some e
  | none => iterBuckets f m.custom

/-- Builds a Map by `Set`-ing the pairs in order into an empty Map (the
test file's `formMap`). -/
def MFromList (ps : List (K × V)) : KMap K V :=
  ps.foldl (fun m p => MSet keq hash isNat m p.1 p.2) ⟨[], [], 0⟩

/-- The structural invariant of a Map, from the spec's data model: the
length field counts the logical entries; no two entries anywhere are
`Equal` as keys; normal-store keys are native; chain entries are custom
keys stored in the bucket of their own hash; bucket hashes are
distinct. -/
abbrev WF (m : KMap K V) : Prop :=
  m.length = (entries m).length ∧
  (entries m).Pairwise (fun p q => keq p.1 q.1 = false) ∧
  (∀ p ∈ m.normal, isNat p.1 = true) ∧
  (∀ b ∈ m.custom, ∀ p ∈ b.2, isNat p.1 = false ∧ hash p.1 = b.1) ∧
  (m.custom.map Prod.fst).Nodup

/-- The hash/equality/kind contract the spec requires of keys: `Equal`
is an equivalence, `Equal` keys hash identically (the consistency
invariant), and `Equal` keys are of the same kind. -/
abbrev KeyLaws : Prop :=
  (∀ a, keq a a = true) ∧
  (∀ a b, keq a b = keq b a) ∧
  (∀ a b c, keq a b = true → keq b c = true → keq a c = true) ∧
  (∀ a b, keq a b = true → hash a = hash b) ∧
  (∀ a b, keq a b = true → isNat a = isNat b)

end MapModel

/-- A small concrete key universe used to instantiate the Map model in
witnesses: four custom keys, three sharing one hash bucket, mirroring
the test file's `dumbHashable` keys whose `Hash` is the constant
1234567890. -/
inductive WKey where
  | a | b | c | d
deriving DecidableEq, Fintype

/-- Key equality for the witness universe (the `dumbHashable.Equal` of
the test file reduces to structural equality). -/
def wkeq (x y : WKey) : Bool := x == y

/-- Hash for the witness universe: `a`, `b`, `c` collide in one bucket,
`d` lives in another. -/
def whash : WKey → Nat
  | .a => 1234567890
  | .b => 1234567890
  | .c => 1234567890
  | .d => 7

/-- All witness keys are custom (hash-bucketed) keys. -/
def wnat : WKey → Bool := fun _ => false

/-- Default key used with `List.getD` in index-based statements; every
such statement bounds the index, so the default is never consulted. -/
def defKey : KeyVal := .str ""

/-! ## Path lemmas -/

theorem getElem?_eq_some_getD {l : Path} {i : Nat} (h : i < l.length) :
    l[i]? = some (l.getD i defKey) := by
  rw [List.getElem?_eq_getElem h, List.getD_eq_getElem l defKey h]

theorem getD_dropLast (l : Path) (i : Nat) (h : i + 1 < l.length) :
    l.dropLast.getD i defKey = l.getD i defKey := by
  have h1 : i < l.dropLast.length := by
    rw [List.length_dropLast]; omega
  rw [List.getD_eq_getElem l.dropLast defKey h1,
    List.getD_eq_getElem l defKey (by omega), List.getElem_dropLast]

theorem base_eq_some_getD {b : Path} (hb : 0 < b.length) :
    Base b = some (b.getD (b.length - 1) defKey) := by
  rw [Base, if_pos hb, List.getLast?_eq_getElem?]
  exact getElem?_eq_some_getD (by omega)

theorem hasPrefixAux_iff (b a : Path) (h : b.length ≤ a.length) :
    hasPrefixAux a b = true ↔
      ∀ i, i < b.length → keyEqual (b.getD i defKey) (a.getD i defKey) = true := by
  induction b generalizing a with
  | nil => simp [hasPrefixAux]
  | cons y ys ih =>
    cases a with
    | nil => simp at h
    | cons x xs =>
      simp only [List.length_cons] at h
      simp only [hasPrefixAux, Bool.and_eq_true, ih xs (by omega)]
      constructor
      · rintro ⟨h0, hrest⟩ i hi
        cases i with
        | zero => simpa using h0
        | succ j =>
          simp only [List.getD_cons_succ]
          exact hrest j (by simp at hi; omega)
      · intro hall
        refine ⟨by simpa using hall 0 (by simp), fun j hj => ?_⟩
        have := hall (j + 1) (by simp; omega)
        simpa using this

theorem matchPrefixAux_iff (b a : Path) (h : b.length ≤ a.length) :
    matchPrefixAux a b = true ↔
      ∀ i, i < b.length →
        (keyEqual (a.getD i defKey) Wildcard = true ∨
         keyEqual (b.getD i defKey) (a.getD i defKey) = true) := by
  induction b generalizing a with
  | nil => simp [matchPrefixAux]
  | cons y ys ih =>
    cases a with
    | nil => simp at h
    | cons x xs =>
      simp only [List.length_cons] at h
      simp only [matchPrefixAux, Bool.and_eq_true, Bool.or_eq_true, ih xs (by omega)]
      constructor
      · rintro ⟨h0, hrest⟩ i hi
        cases i with
        | zero => simpa using h0
        | succ j =>
          simp only [List.getD_cons_succ]
          exact hrest j (by simp at hi; omega)
      · intro hall
        refine ⟨by simpa using hall 0 (by simp), fun j hj => ?_⟩
        have := hall (j + 1) (by simp; omega)
        simpa using this

theorem compareElementString_iff (x y : KeyVal) :
    compareElementString x y = true ↔
      (∃ sa sb, keyStr x = some sa ∧ keyStr y = some sb ∧
          sb.data.isPrefixOf sa.data = true) ∨
      ((keyStr x = none ∨ keyStr y = none) ∧ keyEqual y x = true) := by
  rcases hx : keyStr x with _ | sa <;> rcases hy : keyStr y with _ | sb <;>
    simp [compareElementString, hx, hy]

theorem hasPrefixStringAux_parts (a b : Path) (hb : 0 < b.length)
    (hlen : b.length ≤ a.length) :
    hasPrefixStringAux a b =
      (hasPrefixAux a.dropLast b.dropLast &&
        compareElementString (a.getD (b.length - 1) defKey)
          (b.getD (b.length - 1) defKey)) := by
  have hapos : 0 < a.length := lt_of_lt_of_le hb hlen
  have hParA : Parent a = a.dropLast := if_pos hapos
  have hParB : Parent b = b.dropLast := if_pos hb
  rw [hasPrefixStringAux, if_neg (by omega), hParA, hParB,
    getElem?_eq_some_getD (show b.length - 1 < a.length by omega),
    base_eq_some_getD hb]
  cases hpa : hasPrefixAux a.dropLast b.dropLast <;> simp [hpa]

theorem pre_iff_of_dropLast (a b : Path) (hb : 0 < b.length)
    (hlen : b.length ≤ a.length) :
    hasPrefixAux a.dropLast b.dropLast = true ↔
      (∀ i, i + 1 < b.length →
        keyEqual (b.getD i defKey) (a.getD i defKey) = true) := by
  rw [hasPrefixAux_iff b.dropLast a.dropLast
    (by rw [List.length_dropLast, List.length_dropLast]; omega)]
  constructor
  · intro h i hi
    have := h i (by rw [List.length_dropLast]; omega)
    rwa [getD_dropLast b i hi, getD_dropLast a i (by omega)] at this
  · intro h i hi
    rw [List.length_dropLast] at hi
    rw [getD_dropLast b i (by omega), getD_dropLast a i (by omega)]
    exact h i (by omega)

/-! ## Claims about path matching -/

/-- C1: `HasPrefixString(a,b)` is true iff `len(b) <= len(a)`, every
element of `b` before the last equals the corresponding element of `a`,
and for the last element of `b`: when both it and `a`'s element at
position `len(b)-1` wrap strings, `a`'s string starts with `b`'s last
string; when either is not a string, the last element must be exactly
Equal; and when `b` is empty the result is always true.  Includes the
spec's two concrete examples. -/
theorem claim_C1 :
    HasPrefixString [keyNew "net", keyNew "iface0"] [keyNew "net", keyNew "ifa"] = true ∧
    HasPrefixString [keyNew "net", keyNew "iface0"] [keyNew "net", keyNew "eth"] = false ∧
    (∀ a : Path, HasPrefixString a [] = true) ∧
    (∀ a b : Path,
      HasPrefixString a b = true ↔
        (b.length ≤ a.length ∧
         (∀ i, i + 1 < b.length →
            keyEqual (b.getD i defKey) (a.getD i defKey) = true) ∧
         (∀ bl, Base b = some bl →
            (∃ sa sb, keyStr (a.getD (b.length - 1) defKey) = some sa ∧
                keyStr bl = some sb ∧ sb.data.isPrefixOf sa.data = true) ∨
            ((keyStr (a.getD (b.length - 1) defKey) = none ∨ keyStr bl = none) ∧
                keyEqual bl (a.getD (b.length - 1) defKey) = true)))) := by
  refine ⟨by decide, by decide, ?_, ?_⟩
  · intro a
    simp [HasPrefixString, hasPrefixStringAux]
  · intro a b
    by_cases hb : b.length = 0
    · rw [List.length_eq_zero] at hb
      subst hb
      simp [HasPrefixString, hasPrefixStringAux, Base]
    · by_cases hlen : b.length ≤ a.length
      · rw [HasPrefixString, Bool.and_eq_true, decide_eq_true_iff,
          hasPrefixStringAux_parts a b (by omega) hlen, Bool.and_eq_true,
          pre_iff_of_dropLast a b (by omega) hlen, compareElementString_iff,
          base_eq_some_getD (show 0 < b.length by omega)]
        constructor
        · rintro ⟨_, hmid, hlast⟩
          refine ⟨hlen, hmid, fun bl hbl => ?_⟩
          rw [Option.some_inj] at hbl
          subst hbl
          exact hlast
        · rintro ⟨_, hmid, hlast⟩
          exact ⟨hlen, hmid, hlast _ rfl⟩
      · rw [HasPrefixString]
        simp [hlen]

/-- C1 witness: the characterization applied at a concrete input,
discharging its hypotheses there. -/
theorem claim_C1_witness :
    HasPrefixString [keyNew "net", keyNew "iface0"] [keyNew "net"] = true :=
  (claim_C1.2.2.2 [keyNew "net", keyNew "iface0"] [keyNew "net"]).mpr
    ⟨by decide, fun i hi => by simp [Nat.lt_one_iff] at hi, fun bl hbl => by
      have : bl = keyNew "net" := by
        have hb : Base [keyNew "net"] = some (keyNew "net") := by decide
        rw [hb, Option.some_inj] at hbl
        exact hbl.symm
      subst this
      exact Or.inl ⟨"net", "net", rfl, rfl, by decide⟩⟩

/-- C2: `Match(a,b)` is true iff the lengths are equal and at every
index either `a`'s element equals the Wildcard sentinel or `b`'s element
Equals `a`'s; `MatchPrefix(a,b)` is the same with `len(b) <= len(a)`,
checking the indices of `b`.  Includes the spec's two concrete
examples. -/
theorem claim_C2 :
    (∀ a b : Path,
      Match a b = true ↔
        (a.length = b.length ∧
         ∀ i, i < b.length →
           (keyEqual (a.getD i defKey) Wildcard = true ∨
            keyEqual (b.getD i defKey) (a.getD i defKey) = true))) ∧
    (∀ a b : Path,
      MatchPrefix a b = true ↔
        (b.length ≤ a.length ∧
         ∀ i, i < b.length →
           (keyEqual (a.getD i defKey) Wildcard = true ∨
            keyEqual (b.getD i defKey) (a.getD i defKey) = true))) ∧
    MatchPrefix [Wildcard, keyNew "b"] [keyNew "a", keyNew "b"] = true ∧
    Match [Wildcard, keyNew "b"] [keyNew "a", keyNew "c"] = false := by
  refine ⟨?_, ?_, by decide, by decide⟩
  · intro a b
    by_cases hl : a.length = b.length
    · rw [Match, Bool.and_eq_true, matchPrefixAux_iff b a (by omega)]
      simp [hl]
    · rw [Match]
      simp [hl, Nat.beq_eq_true_eq]
  · intro a b
    by_cases hl : b.length ≤ a.length
    · rw [MatchPrefix, Bool.and_eq_true, matchPrefixAux_iff b a hl]
      simp [hl]
    · rw [MatchPrefix]
      simp [hl]

/-- C2 witness: the MatchPrefix characterization applied at a concrete
input, discharging its hypotheses there. -/
theorem claim_C2_witness :
    MatchPrefix [Wildcard, keyNew "x"] [keyNew "q"] = true :=
  (claim_C2.2.1 [Wildcard, keyNew "x"] [keyNew "q"]).mpr
    ⟨by decide, fun i hi => by
      simp [Nat.lt_one_iff] at hi
      subst hi
      exact Or.inl (by decide)⟩

/-- C8: Wildcard special-casing applies only to elements of the first
argument `a`: at each checked index the test is `a[i].Equal(Wildcard)`
or `b[i].Equal(a[i])`, so a Wildcard element of `b` matches a
non-Wildcard element of `a` only when plain Key equality holds; the
matching relations are not symmetric in `a` and `b`. -/
theorem claim_C8 :
    (∀ a b : Path, b.length ≤ a.length →
      (matchPrefixAux a b = true ↔
        ∀ i, i < b.length →
          (keyEqual (a.getD i defKey) Wildcard = true ∨
           keyEqual (b.getD i defKey) (a.getD i defKey) = true))) ∧
    (∀ x : KeyVal, Match [x] [Wildcard] = keyEqual x Wildcard) ∧
    Match [Wildcard] [keyNew "a"] = true ∧
    Match [keyNew "a"] [Wildcard] = false ∧
    MatchPrefix [Wildcard] [keyNew "a"] = true ∧
    MatchPrefix [keyNew "a"] [Wildcard] = false ∧
    MatchPrefixString [Wildcard] [keyNew "a"] = true ∧
    MatchPrefixString [keyNew "a"] [Wildcard] = false := by
  refine ⟨fun a b h => matchPrefixAux_iff b a h, ?_, by decide, by decide,
    by decide, by decide, by decide, by decide⟩
  intro x
  cases x <;> simp [Match, matchPrefixAux, keyEqual, Wildcard]

/-- C8 witness: the index characterization applied at a concrete input,
discharging its hypothesis there. -/
theorem claim_C8_witness :
    matchPrefixAux [keyNew "a", Wildcard] [keyNew "a"] = true :=
  (claim_C8.1 [keyNew "a", Wildcard] [keyNew "a"] (by decide)).mpr
    (fun i hi => by
      simp [Nat.lt_one_iff] at hi
      subst hi
      exact Or.inr (by decide))

/-! ## Claims about path construction -/

theorem splitSlash_ne_nil (cs : List Char) : splitSlash cs ≠ [] := by
  cases cs with
  | nil => simp [splitSlash]
  | cons c rest =>
    by_cases h : c = '/'
    · simp [splitSlash, h]
    · simp only [splitSlash, h, if_false]
      cases hs : splitSlash rest <;> simp

theorem splitSlash_length (cs : List Char) :
    (splitSlash cs).length = cs.count '/' + 1 := by
  induction cs with
  | nil => simp [splitSlash]
  | cons c rest ih =>
    by_cases h : c = '/'
    · subst h
      simp [splitSlash, List.count_cons, ih]
    · cases hs : splitSlash rest with
      | nil => exact absurd hs (splitSlash_ne_nil rest)
      | cons t ts =>
        rw [hs] at ih
        simp only [splitSlash, h, if_false, hs, List.count_cons, List.length_cons]
        simp only [List.length_cons] at ih
        have hc : (c == '/') = false := by simpa using h
        simp [hc]
        omega

theorem fromString_eq (s : String) (h1 : s ≠ "") (h2 : s ≠ "/") :
    FromString s =
      (splitSlash (stripSlash s.data)).map fun t => keyNew (String.mk t) := by
  rw [FromString, if_neg]
  simp [h1, h2]

/-- C6: `FromString("")` and `FromString("/")` both return the empty
path; for every other input, a single leading `/` is removed, the
remainder is split on `/`, and each token is wrapped into a Key in
order; `FromString("a/b")` is a two-element path Equal to
`New("a","b")`.  No input is rejected: the characterization covers
every string. -/
theorem claim_C6 :
    FromString "" = [] ∧
    FromString "/" = [] ∧
    (∀ s : String, s ≠ "" → s ≠ "/" →
      FromString s =
        (splitSlash (stripSlash s.data)).map fun t => keyNew (String.mk t)) ∧
    FromString "a/b" = [keyNew "a", keyNew "b"] ∧
    Equal (FromString "a/b") (New [Elem.raw "a", Elem.raw "b"]) = true := by
  exact ⟨by decide, by decide, fromString_eq, by decide, by decide⟩

/-- C6 witness: the general characterization applied at a concrete
input, discharging its hypotheses there. -/
theorem claim_C6_witness :
    FromString "x/y" =
      (splitSlash (stripSlash ("x/y" : String).data)).map
        (fun t => keyNew (String.mk t)) :=
  claim_C6.2.2.1 "x/y" (by decide) (by decide)

/-- C7: `Append(p)` with zero additional elements returns `p` itself;
with a non-empty element list `es` it returns a path of length
`len(p) + len(es)` whose first `len(p)` elements are `p`'s elements in
order, followed by the wrapped elements of `es` (in this pure
embedding, `p` itself is trivially left unchanged). -/
theorem claim_C7 :
    (∀ p : Path, Append p [] = p) ∧
    (∀ (p : Path) (es : List Elem), es ≠ [] →
      Append p es = p ++ copyElements es ∧
      (Append p es).length = p.length + es.length ∧
      (Append p es).take p.length = p ∧
      (Append p es).drop p.length = copyElements es) := by
  constructor
  · intro p
    simp [Append]
  · intro p es hes
    have hne : ¬ es.length = 0 := by simpa [List.length_eq_zero] using hes
    refine ⟨by rw [Append, if_neg hne], ?_, ?_, ?_⟩
    · rw [Append, if_neg hne, List.length_append]
      simp [copyElements]
    · rw [Append, if_neg hne, List.take_left]
    · rw [Append, if_neg hne, List.drop_left]

/-- C7 witness: the append characterization applied at a concrete
input, discharging its hypothesis there. -/
theorem claim_C7_witness :
    Append [keyNew "a"] [Elem.raw "b"] = [keyNew "a"] ++ copyElements [Elem.raw "b"] :=
  (claim_C7.2 [keyNew "a"] [Elem.raw "b"] (by decide)).1

/-- C9: `Join` returns a path whose length is the sum of the input
paths' lengths and whose elements are the inputs' elements concatenated
in argument order; with no arguments or only empty paths it returns the
empty (nil) path. -/
theorem claim_C9 :
    Join [] = [] ∧
    (∀ ps : List Path, (Join ps).length = (ps.map List.length).sum) ∧
    (∀ ps : List Path, Join ps = ps.flatten) ∧
    (∀ ps : List Path, (∀ p ∈ ps, p = []) → Join ps = []) := by
  have hflat : ∀ ps : List Path, Join ps = ps.flatten := by
    intro ps
    rw [Join]
    by_cases h : (ps.map List.length).sum = 0
    · rw [if_pos h]
      have : ps.flatten.length = 0 := by rw [List.length_flatten, h]
      exact (List.length_eq_zero.mp this).symm
    · rw [if_neg h]
  refine ⟨by decide, ?_, hflat, ?_⟩
  · intro ps
    rw [hflat, List.length_flatten]
  · intro ps hps
    rw [hflat]
    rw [List.eq_nil_iff_forall_not_mem]
    intro x hx
    rcases List.mem_flatten.mp hx with ⟨l, hl, hxl⟩
    rw [hps l hl] at hxl
    exact absurd hxl (List.not_mem_nil x)

/-- C9 witness: the only-empty-paths case applied at a concrete input,
discharging its hypothesis there. -/
theorem claim_C9_witness : Join [[], [], []] = [] :=
  claim_C9.2.2.2 [[], [], []] (by decide)

/-- C10: `FromString` strips at most one leading `/`: for every input
other than `""` and `"/"`, the resulting path has exactly one more
element than the number of `/` separators in the stripped string, and
consecutive or trailing separators produce elements wrapping the empty
string, e.g. `FromString("a//b")` has three elements whose middle
element wraps `""` and `FromString("//")` has two elements both
wrapping `""`. -/
theorem claim_C10 :
    (∀ s : String, s ≠ "" → s ≠ "/" →
      (FromString s).length = (stripSlash s.data).count '/' + 1) ∧
    FromString "a//b" = [keyNew "a", keyNew "", keyNew "b"] ∧
    (FromString "a//b").getD 1 defKey = keyNew "" ∧
    FromString "//" = [keyNew "", keyNew ""] := by
  refine ⟨?_, by decide, by decide, by decide⟩
  intro s h1 h2
  rw [fromString_eq s h1 h2, List.length_map, splitSlash_length]

/-- C10 witness: the length law applied at a concrete input,
discharging its hypotheses there. -/
theorem claim_C10_witness :
    (FromString "/a//b/").length = (stripSlash ("/a//b/" : String).data).count '/' + 1 :=
  claim_C10.1 "/a//b/" (by decide) (by decide)

/-! ## Map lemmas: chains and buckets -/

section MapLemmas

variable {K V E : Type}
variable (keq : K → K → Bool) (hash : K → Nat) (isNat : K → Bool)

theorem chainHas_chainPut (k : K) (v : V) (c : List (K × V)) (hrefl : keq k k = true) :
    chainHas keq k (chainPut keq k v c) = true := by
  induction c with
  | nil => simp [chainPut, chainHas, hrefl]
  | cons p rest ih =>
    rw [chainPut]
    by_cases h : keq p.1 k = true
    · simp [chainHas, h]
    · rw [if_neg h, chainHas]
      simp [ih]

theorem chainGet_chainPut (k : K) (v : V) (c : List (K × V)) (hrefl : keq k k = true) :
    chainGet keq k (chainPut keq k v c) = some v := by
  induction c with
  | nil => simp [chainPut, chainGet, hrefl]
  | cons p rest ih =>
    rw [chainPut]
    by_cases h : keq p.1 k = true
    · simp [chainGet, h]
    · rw [if_neg h, chainGet, if_neg h]
      exact ih

theorem chainPut_keys_of_has (k : K) (v : V) (c : List (K × V))
    (h : chainHas keq k c = true) :
    (chainPut keq k v c).map Prod.fst = c.map Prod.fst := by
  induction c with
  | nil => simp [chainHas] at h
  | cons p rest ih =>
    rw [chainPut]
    by_cases hp : keq p.1 k = true
    · simp [hp]
    · rw [if_neg hp]
      rw [chainHas, Bool.or_eq_true] at h
      rcases h with h | h
      · exact absurd h hp
      · simp [ih h]

theorem chainIdx_eq_of_keys (k : K) (c1 c2 : List (K × V))
    (h : c1.map Prod.fst = c2.map Prod.fst) :
    chainIdx keq k c1 = chainIdx keq k c2 := by
  induction c1 generalizing c2 with
  | nil =>
    have : c2 = [] := by
      cases c2 with
      | nil => rfl
      | cons q t => simp at h
    subst this
    rfl
  | cons p rest ih =>
    cases c2 with
    | nil => simp at h
    | cons q t =>
      simp only [List.map_cons, List.cons.injEq] at h
      rw [chainIdx, chainIdx, h.1, ih t h.2]

theorem chainIdx_isSome_of_has (k : K) (c : List (K × V))
    (h : chainHas keq k c = true) :
    (chainIdx keq k c).isSome = true := by
  induction c with
  | nil => simp [chainHas] at h
  | cons p rest ih =>
    rw [chainHas, Bool.or_eq_true] at h
    rw [chainIdx]
    by_cases hp : keq p.1 k = true
    · simp [hp]
    · rcases h with h | h
      · exact absurd h hp
      · rw [if_neg hp]
        rcases Option.isSome_iff_exists.mp (ih h) with ⟨n, hn⟩
        simp [hn]

theorem chainHas_false_of (k : K) (c : List (K × V))
    (h : ∀ p ∈ c, keq p.1 k = false) : chainHas keq k c = false := by
  induction c with
  | nil => rfl
  | cons p rest ih =>
    rw [chainHas, Bool.or_eq_false_iff]
    exact ⟨h p (by simp), ih fun q hq => h q (by simp [hq])⟩

theorem chainPut_of_not_has (k : K) (v : V) (c : List (K × V))
    (h : chainHas keq k c = false) :
    chainPut keq k v c = c ++ [(k, v)] := by
  induction c with
  | nil => rfl
  | cons p rest ih =>
    rw [chainHas, Bool.or_eq_false_iff] at h
    rw [chainPut, if_neg (by simp [h.1]), ih h.2]
    rfl

theorem bucketGet_none_iff (h : Nat) (bs : List (Nat × List (K × V))) :
    bucketGet h bs = none ↔ h ∉ bs.map Prod.fst := by
  induction bs with
  | nil => simp [bucketGet]
  | cons b rest ih =>
    rw [bucketGet]
    by_cases hb : b.1 = h
    · simp [hb]
    · rw [if_neg hb, ih]
      simp [Ne.symm hb]

theorem bucketGet_append_none (h : Nat) (c : List (K × V))
    (bs : List (Nat × List (K × V))) (hn : bucketGet h bs = none) :
    bucketGet h (bs ++ [(h, c)]) = some c := by
  induction bs with
  | nil => simp [bucketGet]
  | cons b rest ih =>
    rw [bucketGet] at hn
    rw [List.cons_append, bucketGet]
    by_cases hb : b.1 = h
    · rw [if_pos hb] at hn
      exact absurd hn (by simp)
    · rw [if_neg hb] at hn ⊢
      exact ih hn

theorem bucketGet_bucketPut (h : Nat) (c : List (K × V))
    (bs : List (Nat × List (K × V))) (c0 : List (K × V))
    (hs : bucketGet h bs = some c0) :
    bucketGet h (bucketPut h c bs) = some c := by
  induction bs with
  | nil => simp [bucketGet] at hs
  | cons b rest ih =>
    rw [bucketGet] at hs
    rw [bucketPut]
    by_cases hb : b.1 = h
    · rw [if_pos hb, bucketGet, if_pos hb]
    · rw [if_neg hb, bucketGet, if_neg hb]
      rw [if_neg hb] at hs
      exact ih hs

/-- The bucket of a custom key after `Set`: a fresh singleton chain if
the bucket was absent, the `chainPut` of the old chain otherwise. -/
theorem MSet_custom_bucket (k : K) (hcustom : isNat k = false)
    (m : KMap K V) (v : V) :
    bucketGet (hash k) (MSet keq hash isNat m k v).custom =
      some (match bucketGet (hash k) m.custom with
            | none => [(k, v)]
            | some c => chainPut keq k v c) := by
  rw [MSet, if_neg (by simp [hcustom])]
  cases hb : bucketGet (hash k) m.custom with
  | none =>
    simp only
    exact bucketGet_append_none (hash k) [(k, v)] m.custom hb
  | some c =>
    simp only
    exact bucketGet_bucketPut (hash k) (chainPut keq k v c) m.custom c hb

/-- The length after `Set` on a custom key. -/
theorem MSet_custom_length (k : K) (hcustom : isNat k = false)
    (m : KMap K V) (v : V) :
    (MSet keq hash isNat m k v).length =
      (match bucketGet (hash k) m.custom with
       | none => m.length + 1
       | some c => if chainHas keq k c then m.length else m.length + 1) := by
  rw [MSet, if_neg (by simp [hcustom])]
  cases hb : bucketGet (hash k) m.custom <;> simp

theorem chainGet_of_mem
    (ksymm : ∀ a b, keq a b = keq b a)
    (ktrans : ∀ a b c, keq a b = true → keq b c = true → keq a c = true)
    (k k' : K) (v : V) (c : List (K × V))
    (hpw : c.Pairwise fun p q => keq p.1 q.1 = false)
    (hmem : (k', v) ∈ c) (hk : keq k' k = true) :
    chainGet keq k c = some v := by
  induction c with
  | nil => simp at hmem
  | cons p rest ih =>
    rw [chainGet]
    rcases List.pairwise_cons.mp hpw with ⟨hhead, htail⟩
    by_cases hp : keq p.1 k = true
    · rw [if_pos hp]
      rcases List.mem_cons.mp hmem with heq | hmem'
      · rw [← heq]
      · exfalso
        have h1 : keq k k' = true := by rw [ksymm]; exact hk
        have h2 : keq p.1 k' = true := ktrans p.1 k k' hp h1
        have h3 := hhead (k', v) hmem'
        simp only [h3] at h2
        exact Bool.false_ne_true h2
    · rw [if_neg hp]
      rcases List.mem_cons.mp hmem with heq | hmem'
      · exfalso
        apply hp
        rw [← heq]
        exact hk
      · exact ih htail hmem'

theorem chainGet_some (k : K) (c : List (K × V)) (v : V)
    (h : chainGet keq k c = some v) :
    ∃ k', (k', v) ∈ c ∧ keq k' k = true := by
  induction c with
  | nil => simp [chainGet] at h
  | cons p rest ih =>
    rw [chainGet] at h
    by_cases hp : keq p.1 k = true
    · rw [if_pos hp, Option.some_inj] at h
      exact ⟨p.1, by simp [← h], hp⟩
    · rw [if_neg hp] at h
      rcases ih h with ⟨k', hm, hk⟩
      exact ⟨k', by simp [hm], hk⟩

theorem bucketGet_of_mem (h0 : Nat) (c : List (K × V))
    (bs : List (Nat × List (K × V)))
    (hnd : (bs.map Prod.fst).Nodup) (hmem : (h0, c) ∈ bs) :
    bucketGet h0 bs = some c := by
  induction bs with
  | nil => simp at hmem
  | cons b rest ih =>
    rw [List.map_cons, List.nodup_cons] at hnd
    rw [bucketGet]
    by_cases hb : b.1 = h0
    · rw [if_pos hb, Option.some_inj]
      rcases List.mem_cons.mp hmem with heq | hmem'
      · rw [← heq]
      · exfalso
        apply hnd.1
        rw [hb]
        exact List.mem_map.mpr ⟨(h0, c), hmem', rfl⟩
    · rw [if_neg hb]
      rcases List.mem_cons.mp hmem with heq | hmem'
      · exact absurd (by rw [← heq]) hb
      · exact ih hnd.2 hmem'

theorem bucketGet_some_mem (h0 : Nat) (c : List (K × V))
    (bs : List (Nat × List (K × V))) (h : bucketGet h0 bs = some c) :
    (h0, c) ∈ bs := by
  induction bs with
  | nil => simp [bucketGet] at h
  | cons b rest ih =>
    rw [bucketGet] at h
    by_cases hb : b.1 = h0
    · rw [if_pos hb, Option.some_inj] at h
      have : (h0, c) = b := by rw [← hb, ← h]
      simp [this]
    · rw [if_neg hb] at h
      simp [ih h]

theorem bucketPut_split (h0 : Nat) (bs : List (Nat × List (K × V)))
    (c : List (K × V)) (hb : bucketGet h0 bs = some c) (c' : List (K × V)) :
    ∃ l r, bs = l ++ (h0, c) :: r ∧
      bucketPut h0 c' bs = l ++ (h0, c') :: r ∧
      ∀ b ∈ l, b.1 ≠ h0 := by
  induction bs with
  | nil => simp [bucketGet] at hb
  | cons b rest ih =>
    rw [bucketGet] at hb
    by_cases h1 : b.1 = h0
    · rw [if_pos h1, Option.some_inj] at hb
      refine ⟨[], rest, ?_, ?_, by simp⟩
      · have : (h0, c) = b := by rw [← h1, ← hb]
        simp [this]
      · rw [bucketPut, if_pos h1]
        simp [h1]
    · rw [if_neg h1] at hb
      rcases ih hb with ⟨l, r, he, hp, hl⟩
      refine ⟨b :: l, r, by simp [he], ?_, ?_⟩
      · rw [bucketPut, if_neg h1, hp]
        simp
      · intro b' hb'
        rcases List.mem_cons.mp hb' with heq | hm
        · rw [heq]; exact h1
        · exact hl b' hm

/-- A chain of the custom store is a pairwise block of the entries
list. -/
theorem chain_pairwise_of_entries (m : KMap K V)
    (hpw : (entries m).Pairwise fun p q => keq p.1 q.1 = false)
    (b : Nat × List (K × V)) (hb : b ∈ m.custom) :
    b.2.Pairwise fun p q => keq p.1 q.1 = false := by
  refine hpw.sublist ?_
  refine List.Sublist.trans ?_ (List.sublist_append_right m.normal _)
  exact (List.infix_of_mem_flatten (List.mem_map.mpr ⟨b, hb, rfl⟩)).sublist

theorem MGet_of_entries (hL : KeyLaws keq hash isNat)
    (m : KMap K V) (hwf : WF keq hash isNat m) (k k' : K) (v : V)
    (hmem : (k', v) ∈ entries m) (hk : keq k' k = true) :
    MGet keq hash isNat m k = some v := by
  obtain ⟨hlen, hpw, hnorm, hbuck, hnd⟩ := hwf
  obtain ⟨krefl, ksymm, ktrans, hashOk, kindOk⟩ := hL
  rw [MGet]
  rcases List.mem_append.mp hmem with hm | hm
  · have hnat : isNat k = true := by
      rw [← kindOk k' k hk]
      exact hnorm _ hm
    rw [if_pos hnat]
    exact chainGet_of_mem keq ksymm ktrans k k' v m.normal
      (List.pairwise_append.mp hpw).1 hm hk
  · rcases List.mem_flatten.mp hm with ⟨c, hc, hmc⟩
    rcases List.mem_map.mp hc with ⟨b, hb, hbc⟩
    subst hbc
    have hkinds := hbuck b hb _ hmc
    have hnat : isNat k = false := by
      rw [← kindOk k' k hk]
      exact hkinds.1
    rw [if_neg (by simp [hnat])]
    have hh : hash k = b.1 := by
      rw [← hashOk k' k hk]
      exact hkinds.2
    rw [hh, bucketGet_of_mem b.1 b.2 m.custom hnd (by simpa using hb)]
    exact chainGet_of_mem keq ksymm ktrans k k' v b.2
      (chain_pairwise_of_entries keq m hpw b hb) hmc hk

theorem MGet_some_mem (m : KMap K V) (k : K) (v : V)
    (h : MGet keq hash isNat m k = some v) :
    ∃ k', (k', v) ∈ entries m ∧ keq k' k = true := by
  rw [MGet] at h
  by_cases hn : isNat k = true
  · rw [if_pos hn] at h
    rcases chainGet_some keq k m.normal v h with ⟨k', hm, hk⟩
    exact ⟨k', List.mem_append.mpr (Or.inl hm), hk⟩
  · rw [if_neg hn] at h
    cases hb : bucketGet (hash k) m.custom with
    | none => rw [hb] at h; simp at h
    | some c =>
      rw [hb] at h
      rcases chainGet_some keq k c v h with ⟨k', hm, hk⟩
      refine ⟨k', List.mem_append.mpr (Or.inr ?_), hk⟩
      exact List.mem_flatten.mpr
        ⟨c, List.mem_map.mpr ⟨(hash k, c), bucketGet_some_mem (hash k) c m.custom hb, rfl⟩, hm⟩

/-! ## Claim C3: Set overwrite and collision append -/

/-- C3: for a custom (hash-bucketed) key `k`, `Set(k,v1); Set(k,v2)`
leaves the length unchanged, makes `Get(k)` return `(v2, true)`, and
keeps the position of the `Equal`-matching node in its collision chain;
and `Set` with a key whose hash collides with an existing chain but
that `Equal`s none of its entries appends a new node at the chain's
tail and increments the length by one. -/
theorem claim_C3 {K V : Type} (keq : K → K → Bool) (hash : K → Nat)
    (isNat : K → Bool) (k : K) (hcustom : isNat k = false)
    (hrefl : keq k k = true) :
    (∀ (m : KMap K V) (v1 v2 : V),
      (MSet keq hash isNat (MSet keq hash isNat m k v1) k v2).length =
        (MSet keq hash isNat m k v1).length ∧
      MGet keq hash isNat
        (MSet keq hash isNat (MSet keq hash isNat m k v1) k v2) k = some v2 ∧
      (∃ c1 c2,
        bucketGet (hash k) (MSet keq hash isNat m k v1).custom = some c1 ∧
        bucketGet (hash k)
          (MSet keq hash isNat (MSet keq hash isNat m k v1) k v2).custom = some c2 ∧
        chainIdx keq k c2 = chainIdx keq k c1 ∧
        (chainIdx keq k c1).isSome = true)) ∧
    (∀ (m : KMap K V) (v : V) (c : List (K × V)),
      bucketGet (hash k) m.custom = some c →
      (∀ p ∈ c, keq p.1 k = false) →
      (MSet keq hash isNat m k v).length = m.length + 1 ∧
      bucketGet (hash k) (MSet keq hash isNat m k v).custom =
        some (c ++ [(k, v)])) := by
  constructor
  · intro m v1 v2
    set c1 := (match bucketGet (hash k) m.custom with
               | none => [(k, v1)]
               | some c => chainPut keq k v1 c) with hc1def
    have hb1 : bucketGet (hash k) (MSet keq hash isNat m k v1).custom = some c1 :=
      MSet_custom_bucket keq hash isNat k hcustom m v1
    have hhas : chainHas keq k c1 = true := by
      rw [hc1def]
      cases bucketGet (hash k) m.custom with
      | none => simp [chainHas, hrefl]
      | some c => exact chainHas_chainPut keq k v1 c hrefl
    refine ⟨?_, ?_, ?_⟩
    · rw [MSet_custom_length keq hash isNat k hcustom, hb1]
      simp [hhas]
    · rw [MGet, if_neg (by simp [hcustom]),
        MSet_custom_bucket keq hash isNat k hcustom, hb1]
      simp only
      exact chainGet_chainPut keq k v2 c1 hrefl
    · refine ⟨c1, chainPut keq k v2 c1, hb1, ?_, ?_, ?_⟩
      · rw [MSet_custom_bucket keq hash isNat k hcustom, hb1]
      · exact chainIdx_eq_of_keys keq k _ c1
          (chainPut_keys_of_has keq k v2 c1 hhas)
      · exact chainIdx_isSome_of_has keq k c1 hhas
  · intro m v c hb hall
    have hhas : chainHas keq k c = false := chainHas_false_of keq k c hall
    constructor
    · rw [MSet_custom_length keq hash isNat k hcustom, hb]
      simp [hhas]
    · rw [MSet_custom_bucket keq hash isNat k hcustom, hb]
      simp only
      rw [chainPut_of_not_has keq k v c hhas]

/-- C3 witness: the overwrite and collision-append laws applied to the
concrete witness key universe, discharging every hypothesis there. -/
theorem claim_C3_witness :
    MGet wkeq whash wnat
      (MSet wkeq whash wnat
        (MSet wkeq whash wnat (⟨[], [], 0⟩ : KMap WKey Nat) .a 1) .a 2) .a =
      some 2 ∧
    (MSet wkeq whash wnat
      (⟨[], [(1234567890, [(WKey.a, 1)])], 1⟩ : KMap WKey Nat) .b 2).length = 2 :=
  ⟨((claim_C3 wkeq whash wnat WKey.a (by decide) (by decide)).1
      ⟨[], [], 0⟩ 1 2).2.1,
   ((claim_C3 wkeq whash wnat WKey.b (by decide) (by decide)).2
      ⟨[], [(1234567890, [(WKey.a, 1)])], 1⟩ 2 [(WKey.a, 1)]
      (by decide) (by decide)).1⟩

@[simp] theorem KMap_mk_normal (n : List (K × V))
    (cs : List (Nat × List (K × V))) (len : Nat) :
    (⟨n, cs, len⟩ : KMap K V).normal = n := rfl

@[simp] theorem KMap_mk_custom (n : List (K × V))
    (cs : List (Nat × List (K × V))) (len : Nat) :
    (⟨n, cs, len⟩ : KMap K V).custom = cs := rfl

@[simp] theorem KMap_mk_length (n : List (K × V))
    (cs : List (Nat × List (K × V))) (len : Nat) :
    (⟨n, cs, len⟩ : KMap K V).length = len := rfl

@[simp] theorem entries_mk (n : List (K × V))
    (cs : List (Nat × List (K × V))) (len : Nat) :
    entries (⟨n, cs, len⟩ : KMap K V) = n ++ (cs.map Prod.snd).flatten := rfl

/-- Setting a key that `Equal`-matches no existing entry appends the
pair to the logical entries (up to the position of the touched chain)
and increments the length. -/
theorem MSet_new_perm_length (m : KMap K V) (k : K) (v : V)
    (hnew : ∀ p ∈ entries m, keq p.1 k = false) :
    List.Perm (entries (MSet keq hash isNat m k v)) (entries m ++ [(k, v)]) ∧
    (MSet keq hash isNat m k v).length = m.length + 1 := by
  by_cases hn : isNat k = true
  · have hhas : chainHas keq k m.normal = false :=
      chainHas_false_of keq k m.normal fun p hp =>
        hnew p (List.mem_append.mpr (Or.inl hp))
    rw [MSet, if_pos hn]
    constructor
    · rw [entries_mk, chainPut_of_not_has keq k v m.normal hhas, entries,
        List.append_assoc, List.append_assoc]
      exact List.Perm.append_left m.normal List.perm_append_comm
    · simp [hhas]
  · rw [MSet, if_neg hn]
    cases hb : bucketGet (hash k) m.custom with
    | none =>
      constructor
      · rw [entries_mk, List.map_append, List.flatten_append, entries]
        simp [List.append_assoc]
      · simp
    | some c =>
      have hcmem : ∀ p ∈ c, p ∈ entries m := by
        intro p hp
        refine List.mem_append.mpr (Or.inr ?_)
        exact List.mem_flatten.mpr
          ⟨c, List.mem_map.mpr
            ⟨(hash k, c), bucketGet_some_mem (hash k) c m.custom hb, rfl⟩, hp⟩
      have hhas : chainHas keq k c = false :=
        chainHas_false_of keq k c fun p hp => hnew p (hcmem p hp)
      rcases bucketPut_split (hash k) m.custom c hb (chainPut keq k v c) with
        ⟨l, r, hsplit, hput, _⟩
      constructor
      · rw [entries_mk, hput, chainPut_of_not_has keq k v c hhas, entries, hsplit]
        simp only [List.map_append, List.map_cons, List.flatten_append,
          List.flatten_cons, List.append_assoc, List.singleton_append]
        refine List.Perm.append_left m.normal ?_
        refine List.Perm.append_left _ ?_
        refine List.Perm.append_left c ?_
        exact (List.perm_append_singleton (k, v) _).symm
      · simp [hhas]

/-- Setting a key that `Equal`-matches no existing entry preserves the
Map's structural invariant. -/
theorem MSet_new_WF (hL : KeyLaws keq hash isNat) (m : KMap K V)
    (hwf : WF keq hash isNat m) (k : K) (v : V)
    (hnew : ∀ p ∈ entries m, keq p.1 k = false) :
    WF keq hash isNat (MSet keq hash isNat m k v) := by
  obtain ⟨krefl, ksymm, ktrans, hashOk, kindOk⟩ := hL
  obtain ⟨hlen, hpw, hnorm, hbuck, hnd⟩ := hwf
  obtain ⟨hperm, hlen'⟩ := MSet_new_perm_length keq hash isNat m k v hnew
  refine ⟨?_, ?_, ?_, ?_, ?_⟩
  · rw [hlen', hperm.length_eq, List.length_append, hlen]
    simp
  · have hsymmR : ∀ {p q : K × V},
        keq p.1 q.1 = false → keq q.1 p.1 = false := by
      intro p q h
      rw [ksymm]
      exact h
    refine (hperm.pairwise_iff fun h => hsymmR h).mpr ?_
    rw [List.pairwise_append]
    refine ⟨hpw, by simp, ?_⟩
    intro p hp q hq
    rw [List.mem_singleton] at hq
    subst hq
    exact hnew p hp
  · by_cases hn : isNat k = true
    · rw [MSet, if_pos hn, KMap_mk_normal,
        chainPut_of_not_has keq k v m.normal
          (chainHas_false_of keq k m.normal fun p hp =>
            hnew p (List.mem_append.mpr (Or.inl hp)))]
      intro p hp
      rcases List.mem_append.mp hp with h | h
      · exact hnorm p h
      · rw [List.mem_singleton] at h
        subst h
        exact hn
    · rw [MSet, if_neg hn]
      cases hb : bucketGet (hash k) m.custom with
      | none => exact hnorm
      | some c => exact hnorm
  · by_cases hn : isNat k = true
    · rw [MSet, if_pos hn, KMap_mk_custom]
      exact hbuck
    · rw [MSet, if_neg hn]
      cases hb : bucketGet (hash k) m.custom with
      | none =>
        rw [KMap_mk_custom]
        intro b hbm p hp
        rcases List.mem_append.mp hbm with h | h
        · exact hbuck b h p hp
        · rw [List.mem_singleton] at h
          subst h
          rw [List.mem_singleton] at hp
          subst hp
          exact ⟨by simpa using hn, rfl⟩
      | some c =>
        rcases bucketPut_split (hash k) m.custom c hb (chainPut keq k v c) with
          ⟨l, r, hsplit, hput, _⟩
        have hcmem : ∀ p ∈ c, p ∈ entries m := by
          intro p hp
          refine List.mem_append.mpr (Or.inr ?_)
          exact List.mem_flatten.mpr
            ⟨c, List.mem_map.mpr
              ⟨(hash k, c), bucketGet_some_mem (hash k) c m.custom hb, rfl⟩, hp⟩
        have hhas : chainHas keq k c = false :=
          chainHas_false_of keq k c fun p hp => hnew p (hcmem p hp)
        rw [KMap_mk_custom, hput, chainPut_of_not_has keq k v c hhas]
        intro b hbm p hp
        rcases List.mem_append.mp hbm with h | h
        · exact hbuck b (by rw [hsplit]; exact List.mem_append.mpr (Or.inl h)) p hp
        · rcases List.mem_cons.mp h with h | h
          · subst h
            rcases List.mem_append.mp hp with h2 | h2
            · have := hbuck (hash k, c) (by rw [hsplit]; simp) p h2
              simpa using this
            · rw [List.mem_singleton] at h2
              subst h2
              exact ⟨by simpa using hn, rfl⟩
          · exact hbuck b (by rw [hsplit]; simp [h]) p hp
  · by_cases hn : isNat k = true
    · rw [MSet, if_pos hn, KMap_mk_custom]
      exact hnd
    · rw [MSet, if_neg hn]
      cases hb : bucketGet (hash k) m.custom with
      | none =>
        rw [KMap_mk_custom, List.map_append, List.nodup_append]
        refine ⟨hnd, by simp, ?_⟩
        intro x hx hx2
        simp at hx2
        subst hx2
        exact (bucketGet_none_iff (hash k) m.custom).mp hb hx
      | some c =>
        rcases bucketPut_split (hash k) m.custom c hb (chainPut keq k v c) with
          ⟨l, r, hsplit, hput, _⟩
        rw [KMap_mk_custom, hput]
        have hsame : (l ++ (hash k, chainPut keq k v c) :: r).map Prod.fst =
            m.custom.map Prod.fst := by
          rw [hsplit]
          simp
        rw [hsame]
        exact hnd

/-- Folding `Set` over pairs whose keys match nothing in the
accumulator and are pairwise non-`Equal` appends those pairs to the
logical entries (up to chain placement), preserves well-formedness and
adds the pair count to the length. -/
theorem MSet_fold (hL : KeyLaws keq hash isNat) :
    ∀ (ps : List (K × V)) (m : KMap K V), WF keq hash isNat m →
      (∀ p ∈ ps, ∀ q ∈ entries m, keq q.1 p.1 = false) →
      ps.Pairwise (fun p q => keq p.1 q.1 = false) →
      List.Perm
        (entries (ps.foldl (fun m p => MSet keq hash isNat m p.1 p.2) m))
        (entries m ++ ps) ∧
      WF keq hash isNat (ps.foldl (fun m p => MSet keq hash isNat m p.1 p.2) m) ∧
      (ps.foldl (fun m p => MSet keq hash isNat m p.1 p.2) m).length =
        m.length + ps.length := by
  obtain ⟨krefl, ksymm, ktrans, hashOk, kindOk⟩ := hL
  intro ps
  induction ps with
  | nil =>
    intro m hwf _ _
    refine ⟨?_, hwf, by simp⟩
    rw [List.foldl_nil, List.append_nil]
  | cons p rest ih =>
    intro m hwf hfresh hpw
    rcases List.pairwise_cons.mp hpw with ⟨hhead, htail⟩
    have hnew : ∀ q ∈ entries m, keq q.1 p.1 = false := fun q hq =>
      hfresh p (by simp) q hq
    obtain ⟨hperm1, hlen1⟩ := MSet_new_perm_length keq hash isNat m p.1 p.2 hnew
    have hwf1 : WF keq hash isNat (MSet keq hash isNat m p.1 p.2) :=
      MSet_new_WF keq hash isNat
        ⟨krefl, ksymm, ktrans, hashOk, kindOk⟩ m hwf p.1 p.2 hnew
    have hfresh1 : ∀ p' ∈ rest, ∀ q ∈ entries (MSet keq hash isNat m p.1 p.2),
        keq q.1 p'.1 = false := by
      intro p' hp' q hq
      have hq' : q ∈ entries m ++ [(p.1, p.2)] := (hperm1.mem_iff).mp hq
      rcases List.mem_append.mp hq' with h | h
      · exact hfresh p' (by simp [hp']) q h
      · rw [List.mem_singleton] at h
        subst h
        exact hhead p' hp'
    obtain ⟨hperm2, hwf2, hlen2⟩ :=
      ih (MSet keq hash isNat m p.1 p.2) hwf1 hfresh1 htail
    rw [List.foldl_cons]
    refine ⟨?_, hwf2, ?_⟩
    · refine hperm2.trans ?_
      have h1 : List.Perm (entries (MSet keq hash isNat m p.1 p.2) ++ rest)
          ((entries m ++ [(p.1, p.2)]) ++ rest) := hperm1.append_right rest
      refine h1.trans ?_
      rw [List.append_assoc, List.singleton_append]
    · rw [hlen2, hlen1, List.length_cons]
      omega

/-- The empty Map is well-formed. -/
theorem WF_empty : WF keq hash isNat (⟨[], [], 0⟩ : KMap K V) := by
  refine ⟨rfl, ?_, by simp, by simp, by simp⟩
  simp [entries]

/-- Building a Map from pairs with pairwise non-`Equal` keys: the
logical entries are a permutation of the pairs, the result is
well-formed and its length is the pair count. -/
theorem MFromList_perm (hL : KeyLaws keq hash isNat) (ps : List (K × V))
    (hpw : ps.Pairwise (fun p q => keq p.1 q.1 = false)) :
    List.Perm (entries (MFromList keq hash isNat ps)) ps ∧
    WF keq hash isNat (MFromList keq hash isNat ps) ∧
    (MFromList keq hash isNat ps).length = ps.length := by
  obtain ⟨hperm, hwf, hlen⟩ :=
    MSet_fold keq hash isNat hL ps ⟨[], [], 0⟩ (WF_empty keq hash isNat)
      (by intro p _ q hq; simp [entries] at hq) hpw
  refine ⟨?_, hwf, by simpa using hlen⟩
  refine hperm.trans ?_
  simp [entries]

/-- Unfolding of the Map equality test. -/
theorem MEqual_iff (veq : V → V → Bool) (m1 m2 : KMap K V) :
    MEqual keq hash isNat veq m1 m2 = true ↔
      (m1.length = m2.length ∧
       ∀ p ∈ entries m1,
         ∃ v2, MGet keq hash isNat m2 p.1 = some v2 ∧ veq p.2 v2 = true) := by
  rw [MEqual, Bool.and_eq_true, List.all_eq_true]
  apply and_congr
  · simp
  · apply forall_congr'
    intro p
    apply imp_congr Iff.rfl
    cases hg : MGet keq hash isNat m2 p.1 <;> simp [hg]

/-- Map equality is reflexive on well-formed Maps whose values are
`veq`-reflexive. -/
theorem MEqual_refl (hL : KeyLaws keq hash isNat) (veq : V → V → Bool)
    (m : KMap K V) (hwf : WF keq hash isNat m)
    (hv : ∀ p ∈ entries m, veq p.2 p.2 = true) :
    MEqual keq hash isNat veq m m = true := by
  rw [MEqual_iff]
  refine ⟨rfl, fun p hp => ⟨p.2, ?_, hv p hp⟩⟩
  exact MGet_of_entries keq hash isNat hL m hwf p.1 p.1 p.2
    (by simpa using hp) (hL.1 p.1)

/-- Flipping a length-preserving matching between entry lists whose
left side has pairwise non-`Equal` keys: every right entry is matched
by some left entry. -/
theorem matching_flip
    (ksymm : ∀ a b, keq a b = keq b a)
    (ktrans : ∀ a b c, keq a b = true → keq b c = true → keq a c = true)
    (veq : V → V → Bool) :
    ∀ e1 e2 : List (K × V),
      e1.length = e2.length →
      e1.Pairwise (fun p q => keq p.1 q.1 = false) →
      (∀ p ∈ e1, ∃ q ∈ e2, keq q.1 p.1 = true ∧ veq p.2 q.2 = true) →
      ∀ q0 ∈ e2, ∃ p ∈ e1, keq p.1 q0.1 = true ∧ veq p.2 q0.2 = true := by
  intro e1
  induction e1 with
  | nil =>
    intro e2 hlen _ _ q0 hq0
    rw [List.length_nil] at hlen
    rw [List.length_eq_zero.mp hlen.symm] at hq0
    simp at hq0
  | cons p e1' ih =>
    intro e2 hlen hpw hmatch q0 hq0
    rcases hmatch p (by simp) with ⟨q, hq, hqp, hvpq⟩
    rcases List.append_of_mem hq with ⟨l, r, rfl⟩
    rcases List.pairwise_cons.mp hpw with ⟨hhead, htail⟩
    have hm' : ∀ p' ∈ e1', ∃ q' ∈ l ++ r,
        keq q'.1 p'.1 = true ∧ veq p'.2 q'.2 = true := by
      intro p' hp'
      rcases hmatch p' (by simp [hp']) with ⟨q', hq', hk', hv'⟩
      have hqne : q' ≠ q := by
        intro he
        subst he
        have h1 : keq p.1 q'.1 = true := by rw [ksymm]; exact hqp
        have h2 : keq p.1 p'.1 = true := ktrans _ _ _ h1 hk'
        have h3 := hhead p' hp'
        simp only [h3] at h2
        exact Bool.false_ne_true h2
      refine ⟨q', ?_, hk', hv'⟩
      rcases List.mem_append.mp hq' with h | h
      · exact List.mem_append.mpr (Or.inl h)
      · rcases List.mem_cons.mp h with h | h
        · exact absurd h hqne
        · exact List.mem_append.mpr (Or.inr h)
    have hlen' : e1'.length = (l ++ r).length := by
      simp only [List.length_cons, List.length_append] at hlen ⊢
      omega
    have ihall := ih (l ++ r) hlen' htail hm'
    rcases List.mem_append.mp hq0 with h | h
    · rcases ihall q0 (List.mem_append.mpr (Or.inl h)) with ⟨p', hp', hk', hv'⟩
      exact ⟨p', by simp [hp'], hk', hv'⟩
    · rcases List.mem_cons.mp h with h | h
      · subst h
        exact ⟨p, by simp, by rw [ksymm]; exact hqp, hvpq⟩
      · rcases ihall q0 (List.mem_append.mpr (Or.inr h)) with ⟨p', hp', hk', hv'⟩
        exact ⟨p', by simp [hp'], hk', hv'⟩

/-- Map equality is symmetric on well-formed Maps when the value
equality is symmetric. -/
theorem MEqual_symm (hL : KeyLaws keq hash isNat) (veq : V → V → Bool)
    (vsymm : ∀ a b, veq a b = true → veq b a = true)
    (m1 m2 : KMap K V) (h1 : WF keq hash isNat m1) (h2 : WF keq hash isNat m2)
    (he : MEqual keq hash isNat veq m1 m2 = true) :
    MEqual keq hash isNat veq m2 m1 = true := by
  have ksymm := hL.2.1
  have ktrans := hL.2.2.1
  rw [MEqual_iff] at he ⊢
  obtain ⟨hlen, hm⟩ := he
  refine ⟨hlen.symm, ?_⟩
  have hmatch : ∀ p ∈ entries m1, ∃ q ∈ entries m2,
      keq q.1 p.1 = true ∧ veq p.2 q.2 = true := by
    intro p hp
    rcases hm p hp with ⟨v2, hg, hv⟩
    rcases MGet_some_mem keq hash isNat m2 p.1 v2 hg with ⟨k', hmem, hk⟩
    exact ⟨(k', v2), hmem, hk, hv⟩
  have hlen2 : (entries m1).length = (entries m2).length := by
    rw [← h1.1, ← h2.1, hlen]
  have hflip := matching_flip keq ksymm ktrans veq (entries m1) (entries m2)
    hlen2 h1.2.1 hmatch
  intro q hq
  rcases hflip q hq with ⟨p, hp, hk, hv⟩
  exact ⟨p.2,
    MGet_of_entries keq hash isNat hL m1 h1 q.1 p.1 p.2 (by simpa using hp) hk,
    vsymm _ _ hv⟩

/-- Maps built from the same pairwise-non-`Equal`-keyed pairs in any
two orders are Map-equal. -/
theorem MFromList_equal (hL : KeyLaws keq hash isNat) (veq : V → V → Bool)
    (ps ps' : List (K × V)) (hperm : List.Perm ps' ps)
    (hpw : ps.Pairwise (fun p q => keq p.1 q.1 = false))
    (hv : ∀ p ∈ ps, veq p.2 p.2 = true) :
    MEqual keq hash isNat veq (MFromList keq hash isNat ps)
      (MFromList keq hash isNat ps') = true := by
  have ksymm := hL.2.1
  have hpw' : ps'.Pairwise (fun p q => keq p.1 q.1 = false) := by
    refine (hperm.pairwise_iff ?_).mpr hpw
    intro x y h
    rw [ksymm]
    exact h
  obtain ⟨hperm1, hwf1, hlen1⟩ := MFromList_perm keq hash isNat hL ps hpw
  obtain ⟨hperm2, hwf2, hlen2⟩ := MFromList_perm keq hash isNat hL ps' hpw'
  rw [MEqual_iff]
  constructor
  · rw [hlen1, hlen2]
    exact hperm.length_eq.symm
  · intro p hp
    have hp_ps : p ∈ ps := (hperm1.mem_iff).mp hp
    have hp_e2 : p ∈ entries (MFromList keq hash isNat ps') :=
      (hperm2.mem_iff).mpr ((hperm.mem_iff).mpr hp_ps)
    exact ⟨p.2,
      MGet_of_entries keq hash isNat hL _ hwf2 p.1 p.1 p.2
        (by simpa using hp_e2) (hL.1 p.1),
      hv p hp_ps⟩

/-! ## Claim C5: Iter -/

theorem iterChain_append (f : K → V → Option E) (c1 c2 : List (K × V)) :
    iterChain f (c1 ++ c2) =
      (match iterChain f c1 with
       | some e => some e
       | none => iterChain f c2) := by
  induction c1 with
  | nil => simp [iterChain]
  | cons p rest ih =>
    rw [List.cons_append, iterChain, iterChain]
    cases f p.1 p.2 with
    | some e => rfl
    | none => simpa using ih

theorem iterBuckets_eq_flatten (f : K → V → Option E)
    (bs : List (Nat × List (K × V))) :
    iterBuckets f bs = iterChain f (bs.map Prod.snd).flatten := by
  induction bs with
  | nil => simp [iterBuckets, iterChain]
  | cons b rest ih =>
    rw [iterBuckets, List.map_cons, List.flatten_cons, iterChain_append, ih]

theorem MIter_eq_entries (f : K → V → Option E) (m : KMap K V) :
    MIter f m = iterChain f (entries m) := by
  rw [MIter, entries, iterChain_append, iterBuckets_eq_flatten]

theorem iterChain_none (f : K → V → Option E) (c : List (K × V))
    (h : ∀ p ∈ c, f p.1 p.2 = none) : iterChain f c = none := by
  induction c with
  | nil => rfl
  | cons p rest ih =>
    rw [iterChain, h p (by simp)]
    exact ih fun q hq => h q (by simp [hq])

theorem iterChain_stops (f : K → V → Option E) (pre post : List (K × V))
    (k : K) (v : V) (e : E) (hpre : ∀ p ∈ pre, f p.1 p.2 = none)
    (herr : f k v = some e) :
    iterChain f (pre ++ (k, v) :: post) = some e := by
  induction pre with
  | nil => simp [iterChain, herr]
  | cons p rest ih =>
    rw [List.cons_append, iterChain, hpre p (by simp)]
    exact ih fun q hq => hpre q (by simp [hq])

/-- C5: `Iter` applies the visitor to the entries of the Map one by
one (normal store first, then each collision chain head to tail); when
the visitor never errors it is invoked exactly once per logical entry —
`length` times on a well-formed Map — and `Iter` returns nil; when the
visitor errors on some entry, iteration stops right there (entries
after it are not visited, as they do not influence the result) and that
exact error value is returned unmodified. -/
theorem claim_C5 {K V E : Type} (keq : K → K → Bool) (hash : K → Nat)
    (isNat : K → Bool) :
    (∀ (f : K → V → Option E) (m : KMap K V),
      MIter f m = iterChain f (entries m)) ∧
    (∀ (f : K → V → Option E) (m : KMap K V),
      WF keq hash isNat m →
      (∀ p ∈ entries m, f p.1 p.2 = none) →
      MIter f m = none ∧ (entries m).length = m.length) ∧
    (∀ (f : K → V → Option E) (m : KMap K V) (pre post : List (K × V))
        (k : K) (v : V) (e : E),
      entries m = pre ++ (k, v) :: post →
      (∀ p ∈ pre, f p.1 p.2 = none) →
      f k v = some e →
      MIter f m = some e) := by
  refine ⟨fun f m => MIter_eq_entries f m, ?_, ?_⟩
  · intro f m hwf hnone
    exact ⟨by rw [MIter_eq_entries]; exact iterChain_none f _ hnone, hwf.1.symm⟩
  · intro f m pre post k v e hsplit hpre herr
    rw [MIter_eq_entries, hsplit]
    exact iterChain_stops f pre post k v e hpre herr

/-- C5 witness: the success and error laws applied to a concrete
three-entry Map over the witness key universe (one bucket holding a
two-key collision chain and a second bucket), discharging every
hypothesis there. -/
theorem claim_C5_witness :
    MIter (fun (_ : WKey) (_ : Nat) => (none : Option String))
      (MFromList wkeq whash wnat [(WKey.a, 1), (WKey.b, 2), (WKey.d, 4)]) = none ∧
    MIter (fun (k : WKey) (_ : Nat) =>
        if k == WKey.b then some "boom" else (none : Option String))
      (MFromList wkeq whash wnat [(WKey.a, 1), (WKey.b, 2), (WKey.d, 4)]) =
      some "boom" :=
  ⟨((claim_C5 wkeq whash wnat).2.1
      (fun _ _ => none)
      (MFromList wkeq whash wnat [(WKey.a, 1), (WKey.b, 2), (WKey.d, 4)])
      (by decide) (by decide)).1,
   (claim_C5 wkeq whash wnat).2.2
      (fun k _ => if k == WKey.b then some "boom" else none)
      (MFromList wkeq whash wnat [(WKey.a, 1), (WKey.b, 2), (WKey.d, 4)])
      [(WKey.a, 1)] [(WKey.d, 4)] WKey.b 2 "boom"
      (by decide) (by decide) (by decide)⟩

/-! ## Claim C4: Map equality -/

/-- C4 (amended): for every finite set of (key, value) pairs whose keys
are pairwise non-`Equal`, two Maps built by `Set`-ing the same pairs in
two different orders are `Equal` — including when values are nested
Maps, compared by Map equality — and Map equality is reflexive and
symmetric on well-formed Maps (with `veq` reflexive on the stored
values, respectively symmetric, as value equality in the real code
is). -/
theorem claim_C4 {K V : Type} (keq : K → K → Bool) (hash : K → Nat)
    (isNat : K → Bool) (veq : V → V → Bool)
    (hL : KeyLaws keq hash isNat)
    (vsymm : ∀ a b, veq a b = true → veq b a = true) :
    (∀ ps ps' : List (K × V), List.Perm ps' ps →
      ps.Pairwise (fun p q => keq p.1 q.1 = false) →
      (∀ p ∈ ps, veq p.2 p.2 = true) →
      MEqual keq hash isNat veq (MFromList keq hash isNat ps)
        (MFromList keq hash isNat ps') = true) ∧
    (∀ m : KMap K V, WF keq hash isNat m →
      (∀ p ∈ entries m, veq p.2 p.2 = true) →
      MEqual keq hash isNat veq m m = true) ∧
    (∀ m1 m2 : KMap K V, WF keq hash isNat m1 → WF keq hash isNat m2 →
      MEqual keq hash isNat veq m1 m2 = true →
      MEqual keq hash isNat veq m2 m1 = true) ∧
    (∀ ps ps' : List (K × KMap K V), List.Perm ps' ps →
      ps.Pairwise (fun p q => keq p.1 q.1 = false) →
      (∀ p ∈ ps, WF keq hash isNat p.2 ∧
        ∀ q ∈ entries p.2, veq q.2 q.2 = true) →
      MEqual keq hash isNat (fun x y => MEqual keq hash isNat veq x y)
        (MFromList keq hash isNat ps) (MFromList keq hash isNat ps') = true) := by
  refine ⟨?_, ?_, ?_, ?_⟩
  · intro ps ps' hperm hpw hv
    exact MFromList_equal keq hash isNat hL veq ps ps' hperm hpw hv
  · intro m hwf hv
    exact MEqual_refl keq hash isNat hL veq m hwf hv
  · intro m1 m2 h1 h2 he
    exact MEqual_symm keq hash isNat hL veq vsymm m1 m2 h1 h2 he
  · intro ps ps' hperm hpw hv
    refine MFromList_equal keq hash isNat hL
      (fun x y => MEqual keq hash isNat veq x y) ps ps' hperm hpw ?_
    intro p hp
    exact MEqual_refl keq hash isNat hL veq p.2 (hv p hp).1 (hv p hp).2

/-- C4 counterexample: the claim as stated (without the pairwise
non-`Equal` keys restriction) is false.  The finite set of pairs
whose elements are (a,1) and (a,2) — two pairs over one `Equal` key —
gives, `Set` in its two orders, Maps holding 2 and 1 respectively, and
the two Maps are not `Equal` in either direction. -/
theorem claim_C4_counterexample :
    MEqual wkeq whash wnat Nat.beq
      (MFromList wkeq whash wnat [(WKey.a, 1), (WKey.a, 2)])
      (MFromList wkeq whash wnat [(WKey.a, 2), (WKey.a, 1)]) = false := by
  decide

/-- C4 witness: the amended laws applied at concrete inputs over the
witness key universe, discharging every hypothesis there — both with
scalar values (keys a,b colliding in one hash bucket) and with
nested-Map values. -/
theorem claim_C4_witness :
    MEqual wkeq whash wnat (fun x y : Fin 5 => x == y)
      (MFromList wkeq whash wnat [(WKey.a, 1), (WKey.b, 2), (WKey.d, 3)])
      (MFromList wkeq whash wnat [(WKey.d, 3), (WKey.b, 2), (WKey.a, 1)]) = true ∧
    MEqual wkeq whash wnat
      (fun x y => MEqual wkeq whash wnat (fun a b : Fin 5 => a == b) x y)
      (MFromList wkeq whash wnat
        [(WKey.a, MFromList wkeq whash wnat [(WKey.c, (1 : Fin 5))]),
         (WKey.b, ⟨[], [], 0⟩)])
      (MFromList wkeq whash wnat
        [(WKey.b, ⟨[], [], 0⟩),
         (WKey.a, MFromList wkeq whash wnat [(WKey.c, (1 : Fin 5))])]) = true :=
  ⟨(claim_C4 wkeq whash wnat (fun x y : Fin 5 => x == y)
      (by decide) (by decide)).1
      [(WKey.a, 1), (WKey.b, 2), (WKey.d, 3)]
      [(WKey.d, 3), (WKey.b, 2), (WKey.a, 1)]
      (by decide) (by decide) (by decide),
   (claim_C4 wkeq whash wnat (fun a b : Fin 5 => a == b)
      (by decide) (by decide)).2.2.2
      [(WKey.a, MFromList wkeq whash wnat [(WKey.c, (1 : Fin 5))]),
       (WKey.b, ⟨[], [], 0⟩)]
      [(WKey.b, ⟨[], [], 0⟩),
       (WKey.a, MFromList wkeq whash wnat [(WKey.c, (1 : Fin 5))])]
      (by decide) (by decide) (by decide)⟩

end MapLemmas

end GoaristaVerify
